import Mathlib

/-!
Chunk cache of metrictank (`mdata/cache/cache.go`).

A shallow embedding of `CCache` (the map from metric key to per-metric chunk
index, together with its accountant) and of the three operations that touch
it: `Add`, `Search` and the body of the eviction worker `evictLoop`.

* The map `map[string]*CCacheMetric` is a function `String → Option M`; a
  method that mutates the pointed-to `CCacheMetric` in place is embedded as a
  function returning the updated value, which is stored back under the key.
* The accountant `accnt.Accnt` is an interface whose implementation lives in
  another package; it is embedded as the log of the calls it received.
* `cache.go` only calls the methods of `CCacheMetric`; they are taken as a
  record of operations `CCacheMetricOps`, and a model of them written from the
  specification is supplied separately (`specOps`).
* Timestamps are `uint32` in the source and `Nat` here; the operations
  embedded below compare timestamps and never add to them.
-/

namespace Metrictank

/-! ## Collaborators of `cache.go` -/

/-- Modelled from the spec: `chunk.IterGen`, the chunk handle (the package
`mdata/chunk` is not part of the sources).  The spec gives it a start
timestamp, a byte size and a payload the cache never inspects; `cache.go`
reads the first two through `Ts()` and `Size()`. -/
structure IterGen where
  Ts : Nat
  Size : Nat
  payload : List Nat
deriving DecidableEq, Repr

/-- One call received by the accountant (`accnt.Accnt`), with its arguments. -/
inductive AccntCall where
  | AddChunk (metric : String) (ts : Nat) (size : Nat)
  | HitChunk (metric : String) (ts : Nat)
  | MissMetric
  | CompleteMetric
  | PartialMetric
deriving DecidableEq, Repr

/-- The accountant, seen from the cache: the calls made on it, oldest first. -/
abbrev Accnt := List AccntCall

/-- Constructor `accnt.NewFlatAccnt(maxSize)`: no call received yet. -/
def NewFlatAccnt : Accnt := []

/-- Call `c.accnt.AddChunk(metric, ts, size)`. -/
def Accnt.AddChunk (a : Accnt) (metric : String) (ts size : Nat) : Accnt :=
  a ++ [AccntCall.AddChunk metric ts size]

/-- Call `c.accnt.HitChunk(metric, ts)`. -/
def Accnt.HitChunk (a : Accnt) (metric : String) (ts : Nat) : Accnt :=
  a ++ [AccntCall.HitChunk metric ts]

/-- Call `c.accnt.MissMetric()`. -/
def Accnt.MissMetric (a : Accnt) : Accnt := a ++ [AccntCall.MissMetric]

/-- Call `c.accnt.CompleteMetric()`. -/
def Accnt.CompleteMetric (a : Accnt) : Accnt := a ++ [AccntCall.CompleteMetric]

/-- Call `c.accnt.PartialMetric()`. -/
def Accnt.PartialMetric (a : Accnt) : Accnt := a ++ [AccntCall.PartialMetric]

/-- An element of the eviction queue (`target.Metric`, `target.Ts`). -/
structure EvictTarget where
  Metric : String
  Ts : Nat
deriving DecidableEq, Repr

/-! ## `cache.go` -/

/-- Struct `CCSearchResult` (cache.go, lines 34-54). -/
structure CCSearchResult where
  From : Nat
  Until : Nat
  Complete : Bool
  Start : List IterGen
  End : List IterGen
deriving DecidableEq, Repr

/-- The methods of `*CCacheMetric` that `cache.go` calls.  All of them have a
pointer receiver, so each returns the entry as the call left it: `Search`
together with the result it was handed (also a pointer), `Del` together with
the `int` the source names `length`. -/
structure CCacheMetricOps (M : Type) where
  NewCCacheMetric : M
  Init : M → Nat → IterGen → M
  Add : M → Nat → IterGen → M
  Search : M → CCSearchResult → Nat → Nat → M × CCSearchResult
  Del : M → Nat → M × Nat

/-- Struct `CCache` (cache.go, lines 23-32), without the lock. -/
structure CCache (M : Type) where
  metricCache : String → Option M
  accnt : Accnt

/-- Function `NewCCache` (cache.go, lines 56-63).  The eviction worker it starts is
embedded as the transition `CCache.evictStep`. -/
def NewCCache (M : Type) : CCache M :=
  { metricCache := fun _ => none, accnt := NewFlatAccnt }

/-- Method `CCache.Add` (cache.go, lines 65-80). -/
def CCache.Add {M : Type} (ops : CCacheMetricOps M) (c : CCache M)
    (metric : String) (prev : Nat) (itergen : IterGen) : CCache M × Bool :=
  let metricCache :=
    match c.metricCache metric with
    | none =>
      let ccm := ops.NewCCacheMetric
      let ccm := ops.Init ccm prev itergen
      Function.update c.metricCache metric (some ccm)
    | some ccm =>
      Function.update c.metricCache metric (some (ops.Add ccm prev itergen))
  ({ metricCache := metricCache,
     accnt := c.accnt.AddChunk metric itergen.Ts itergen.Size }, true)

/-- Method `CCache.Search` (cache.go, lines 82-126).  The call
`cm.Search(res, from, until)` is made through the pointer held in the map, so
the entry it leaves is what the map holds afterwards; the two `range` loops
are folds over the returned slices. -/
def CCache.Search {M : Type} (ops : CCacheMetricOps M) (c : CCache M)
    (metric : String) (from_ until_ : Nat) : CCache M × CCSearchResult :=
  let res : CCSearchResult :=
    { From := from_, Until := until_, Start := [], End := [], Complete := false }
  match c.metricCache metric with
  | none => ({ c with accnt := c.accnt.MissMetric }, res)
  | some cm =>
    let r := ops.Search cm res from_ until_
    let metricCache := Function.update c.metricCache metric (some r.1)
    let res := r.2
    if res.Start.length = 0 ∧ res.End.length = 0 then
      ({ metricCache := metricCache, accnt := c.accnt.MissMetric }, res)
    else
      let a := res.Start.foldl (fun a hit => a.HitChunk metric hit.Ts) c.accnt
      let a := res.End.foldl (fun a hit => a.HitChunk metric hit.Ts) a
      if res.Complete then
        ({ metricCache := metricCache, accnt := a.CompleteMetric }, res)
      else
        ({ metricCache := metricCache, accnt := a.PartialMetric }, res)

/-- The body of the loop of `CCache.evictLoop` (cache.go, lines 134-141) for
one target taken from the eviction queue. -/
def CCache.evictStep {M : Type} (ops : CCacheMetricOps M) (c : CCache M)
    (target : EvictTarget) : CCache M :=
  match c.metricCache target.Metric with
  | some met =>
    let r := ops.Del met target.Ts
    let length := r.2
    if length = 0 then
      { c with metricCache := Function.update c.metricCache target.Metric none }
    else
      { c with metricCache := Function.update c.metricCache target.Metric (some r.1) }
  | none => c

/-- Method `CCache.evictLoop` (cache.go, lines 128-143) on the targets received. -/
def CCache.evictLoop {M : Type} (ops : CCacheMetricOps M) (c : CCache M)
    (evictQ : List EvictTarget) : CCache M :=
  evictQ.foldl (CCache.evictStep ops) c

/-! ## The per-metric chunk index, from the specification -/

/-- Modelled from the spec: `CCacheMetric`, the per-metric chunk index
(`MetricEntry` in spec section 3; its source file is not part of the sources).
`chunks` is the mapping from start timestamp to chunk in its ordered view
(ascending `Ts`); `prevTs` maps the start timestamp of a resident chunk to
the start timestamp of its real-time predecessor. -/
structure CCacheMetric where
  chunks : List IterGen
  prevTs : List (Nat × Nat)
deriving DecidableEq, Repr

/-- Modelled from the spec: `NewCCacheMetric`, whose source is absent; a fresh
entry holds no chunk. -/
def NewCCacheMetric : CCacheMetric := { chunks := [], prevTs := [] }

/-- Modelled from the spec: residency of a chunk starting at `ts` in the entry
(membership of `ts` in the keys of `chunks`). -/
def CCacheMetric.resident (mc : CCacheMetric) (ts : Nat) : Bool :=
  mc.chunks.any (fun g => g.Ts == ts)

/-- Modelled from the spec: lookup in `chunks`, the resident chunk starting at
`ts` if any. -/
def CCacheMetric.chunkAt (mc : CCacheMetric) (ts : Nat) : Option IterGen :=
  mc.chunks.find? (fun g => g.Ts == ts)

/-- Modelled from the spec: insertion into the ordered view of `chunks`. -/
def insertChunk (g : IterGen) : List IterGen → List IterGen
  | [] => [g]
  | h :: t => if g.Ts ≤ h.Ts then g :: h :: t else h :: insertChunk g t

/-- Modelled from the spec: `CCacheMetric.Add`, whose source is absent
(spec 4.1, Add): a duplicate insert keeps the existing entry; otherwise the
chunk is inserted and `prevTs[chunk.ts] = prev` is recorded when
`prev < chunk.ts`. -/
def CCacheMetric.Add (mc : CCacheMetric) (prev : Nat) (itergen : IterGen) : CCacheMetric :=
  if mc.resident itergen.Ts then mc
  else
    { chunks := insertChunk itergen mc.chunks,
      prevTs := if prev < itergen.Ts then (itergen.Ts, prev) :: mc.prevTs else mc.prevTs }

/-- Modelled from the spec: `CCacheMetric.Init`, whose source is absent; the
spec has a single insertion that creates the entry when it is missing, so the
first insertion is an `Add` on the fresh entry. -/
def CCacheMetric.Init (mc : CCacheMetric) (prev : Nat) (itergen : IterGen) : CCacheMetric :=
  mc.Add prev itergen

/-- Modelled from the spec: `CCacheMetric.Del`, whose source is absent
(spec 4.1, Del, and 4.4): removes the chunk at `ts` with its predecessor
link, a no-op when that chunk is not resident; the returned number is the
count of chunks left, which the eviction worker compares with 0. -/
def CCacheMetric.Del (mc : CCacheMetric) (ts : Nat) : CCacheMetric × Nat :=
  if mc.resident ts then
    let mc1 : CCacheMetric :=
      { chunks := mc.chunks.filter (fun g => g.Ts != ts),
        prevTs := mc.prevTs.filter (fun e => e.1 != ts) }
    (mc1, mc1.chunks.length)
  else (mc, mc.chunks.length)

/-- Modelled from the spec: step 1 of the range search (spec 4.2), the anchor
is the chunk with the largest `ts ≤ from` if there is one (the glossary: the
resident chunk whose interval contains `from`, or the nearest one before
it). -/
def anchorFor (chunks : List IterGen) (from_ : Nat) : Option IterGen :=
  (chunks.filter (fun g => g.Ts ≤ from_)).getLast?

/-- Modelled from the spec: step 2 of the range search (spec 4.2), after the
chunk at `ts` has been appended: the candidates are the resident chunks after
`ts` in ascending order; the scan goes on while the next one starts at or
before `until - 1` and names `ts` as its predecessor. -/
def forwardScan (prevTs : List (Nat × Nat)) (until_ : Nat) : Nat → List IterGen → List IterGen
  | _, [] => []
  | ts, g :: rest =>
    if g.Ts ≤ until_ - 1 ∧ prevTs.lookup g.Ts = some ts then
      g :: forwardScan prevTs until_ g.Ts rest
    else []

/-- Modelled from the spec: step 4 of the range search (spec 4.2), after the
chunk at `ts` has been appended: follow `prevTs[ts] = p` while `p` is resident
and `p < ts`.  Every step lowers `ts`, so `ts` steps are enough
(`backwardScan_fuel`). -/
def backwardScan (mc : CCacheMetric) : Nat → Nat → List IterGen
  | 0, _ => []
  | fuel + 1, ts =>
    match mc.prevTs.lookup ts with
    | none => []
    | some p =>
      match mc.chunkAt p with
      | none => []
      | some g => if p < ts then g :: backwardScan mc fuel p else []

/-- Modelled from the spec: steps 1 and 2 of the range search (spec 4.2), the
slice appended to `start`.  Without an anchor the scan would start at the
smallest `ts ≥ from`, a chunk that follows no appended chunk: step 2 appends
a chunk only as the `prevTs` successor of the one before it and stops on any
gap, so nothing is appended (scenarios 5 and 6 of spec section 8). -/
def CCacheMetric.searchForward (mc : CCacheMetric) (from_ until_ : Nat) : List IterGen :=
  match anchorFor mc.chunks from_ with
  | none => []
  | some a =>
    a :: forwardScan mc.prevTs until_ a.Ts (mc.chunks.filter (fun g => a.Ts < g.Ts))

/-- Modelled from the spec: the range search of spec 4.2 on the result handed
to `CCacheMetric.Search`, whose source is absent.  `from ≥ until` leaves the
result empty; otherwise the forward scan fills `Start`, step 3 completes
early when its last chunk starts at or after `until - 1`, step 4 finds the
chunk with the largest `ts ≤ until - 1`, skips when it is the last chunk of
`Start` (the spec: completeness already holds) and else fills `End` by the
backward scan, and step 5 completes when the head of `End` names the last
chunk of `Start` as its predecessor.  The steps of spec 4.2 never assign
`from` or `until` of the result.  They carry no chunk length: scenarios 2 and
3 of spec section 8 follow from them, scenario 4 (same entry as scenario 2,
a later `until`) does not. -/
def CCacheMetric.searchRange (mc : CCacheMetric) (res : CCSearchResult) (from_ until_ : Nat) :
    CCSearchResult :=
  if until_ ≤ from_ then res
  else
    let start := mc.searchForward from_ until_
    let res := { res with Start := res.Start ++ start }
    if (match start.getLast? with
        | some l => decide (until_ - 1 ≤ l.Ts)
        | none => false) then
      { res with Complete := true }
    else
      match (mc.chunks.filter (fun g => g.Ts ≤ until_ - 1)).getLast? with
      | none => res
      | some u =>
        if start.getLast? = some u then { res with Complete := true }
        else
          let res := { res with End := res.End ++ u :: backwardScan mc u.Ts u.Ts }
          match start.getLast? with
          | none => res
          | some l =>
            if mc.prevTs.lookup u.Ts = some l.Ts then { res with Complete := true } else res

/-- Modelled from the spec: `CCacheMetric.Search`, whose source is absent.
The entry is left as it is (spec 4.1: reads during `Search` do not mutate
entry structure; spec 3: a chunk may be touched, through the accountant, but
never mutated) and the result is filled by the range search. -/
def CCacheMetric.Search (mc : CCacheMetric) (res : CCSearchResult) (from_ until_ : Nat) :
    CCacheMetric × CCSearchResult :=
  (mc, mc.searchRange res from_ until_)

/-- Modelled from the spec: the per-metric index above as the implementation
of the `CCacheMetric` methods `cache.go` calls. -/
def specOps : CCacheMetricOps CCacheMetric :=
  { NewCCacheMetric := NewCCacheMetric
    Init := CCacheMetric.Init
    Add := CCacheMetric.Add
    Search := CCacheMetric.Search
    Del := CCacheMetric.Del }

/-! ## Runs of the cache -/

/-- An operation on the cache: a call of `Add`, a call of `Search`, or one
step of the eviction worker. -/
inductive Op where
  | add (metric : String) (prev : Nat) (itergen : IterGen)
  | search (metric : String) (from_ until_ : Nat)
  | evict (target : EvictTarget)
deriving DecidableEq, Repr

/-- The state after one operation. -/
def step (c : CCache CCacheMetric) : Op → CCache CCacheMetric
  | Op.add metric prev itergen => (c.Add specOps metric prev itergen).1
  | Op.search metric from_ until_ => (c.Search specOps metric from_ until_).1
  | Op.evict target => c.evictStep specOps target

/-- The state after a sequence of operations. -/
def run (c : CCache CCacheMetric) (ops : List Op) : CCache CCacheMetric :=
  ops.foldl step c

/-- The states the cache goes through: those reached from `NewCCache` by
calls of `Add` and `Search` and steps of the eviction worker. -/
inductive Reachable : CCache CCacheMetric → Prop where
  | init : Reachable (NewCCache CCacheMetric)
  | step (c : CCache CCacheMetric) (op : Op) : Reachable c → Reachable (step c op)

/-- Whether a call is one of the three statistics events. -/
def AccntCall.isStat : AccntCall → Bool
  | AccntCall.MissMetric => true
  | AccntCall.CompleteMetric => true
  | AccntCall.PartialMetric => true
  | _ => false

/-- Whether a call is a `HitChunk`. -/
def AccntCall.isHit : AccntCall → Bool
  | AccntCall.HitChunk _ _ => true
  | _ => false

/-- The calls the accountant received between state `c` and the later state
`c1`. -/
def callsSince {M : Type} (c c1 : CCache M) : List AccntCall :=
  c1.accnt.drop c.accnt.length

/-- The ordered view of an entry: start timestamps strictly ascending. -/
def CCacheMetric.ordered (mc : CCacheMetric) : Prop :=
  mc.chunks.Pairwise (fun a b => a.Ts < b.Ts)

/-- The invariant of the map: every entry holds at least one chunk and keeps
its ordered view. -/
def Inv (c : CCache CCacheMetric) : Prop :=
  ∀ metric e, c.metricCache metric = some e → e.chunks ≠ [] ∧ e.ordered

/-- The entry left by removing the chunk at `ts`. -/
def CCacheMetric.without (mc : CCacheMetric) (ts : Nat) : CCacheMetric :=
  (mc.Del ts).1

/-- A chunk starting at 100. -/
def chunk100 : IterGen := { Ts := 100, Size := 10, payload := [] }

/-- A chunk starting at 200. -/
def chunk200 : IterGen := { Ts := 200, Size := 10, payload := [] }

/-- A chunk starting at 300. -/
def chunk300 : IterGen := { Ts := 300, Size := 10, payload := [] }

/-- A chunk starting at 400. -/
def chunk400 : IterGen := { Ts := 400, Size := 10, payload := [] }

/-- A short run: two metrics receive a chunk, then the first is evicted. -/
def shortRun : CCache CCacheMetric :=
  step (step (step (NewCCache CCacheMetric) (Op.add "a" 0 chunk100)) (Op.add "b" 0 chunk100))
    (Op.evict ⟨"a", 100⟩)

/-! ## `cache.go` for any implementation of the per-metric index -/

theorem foldl_HitChunk (metric : String) (l : List IterGen) (a : Accnt) :
    l.foldl (fun a hit => a.HitChunk metric hit.Ts) a
      = a ++ l.map (fun hit => AccntCall.HitChunk metric hit.Ts) := by
  induction l generalizing a with
  | nil => simp
  | cons h t ih =>
    rw [List.foldl_cons, ih]
    simp [Accnt.HitChunk]

/-- The result of `CCache.Search`: the initial result on a missing entry,
what the entry's `Search` made of it otherwise. -/
theorem Search_result {M : Type} (ops : CCacheMetricOps M) (c : CCache M)
    (metric : String) (from_ until_ : Nat) :
    (c.Search ops metric from_ until_).2 =
      match c.metricCache metric with
      | none => { From := from_, Until := until_, Start := [], End := [], Complete := false }
      | some cm =>
        (ops.Search cm
          { From := from_, Until := until_, Start := [], End := [], Complete := false }
          from_ until_).2 := by
  unfold CCache.Search
  cases c.metricCache metric with
  | none => rfl
  | some cm =>
    simp only
    split_ifs <;> rfl

/-- The map after `CCache.Search`: untouched on a missing entry, holding what
the entry's `Search` left of the entry otherwise. -/
theorem Search_metricCache {M : Type} (ops : CCacheMetricOps M) (c : CCache M)
    (metric : String) (from_ until_ : Nat) :
    (c.Search ops metric from_ until_).1.metricCache =
      match c.metricCache metric with
      | none => c.metricCache
      | some cm =>
        Function.update c.metricCache metric
          (some (ops.Search cm
            { From := from_, Until := until_, Start := [], End := [], Complete := false }
            from_ until_).1) := by
  unfold CCache.Search
  cases c.metricCache metric with
  | none => rfl
  | some cm =>
    simp only
    split_ifs <;> rfl

/-- The calls `CCache.Search` makes on the accountant, from its result. -/
theorem Search_accnt {M : Type} (ops : CCacheMetricOps M) (c : CCache M)
    (metric : String) (from_ until_ : Nat) :
    (c.Search ops metric from_ until_).1.accnt =
      c.accnt ++
        (if (c.Search ops metric from_ until_).2.Start = [] ∧
            (c.Search ops metric from_ until_).2.End = [] then
          [AccntCall.MissMetric]
        else
          ((c.Search ops metric from_ until_).2.Start ++
              (c.Search ops metric from_ until_).2.End).map
            (fun hit => AccntCall.HitChunk metric hit.Ts) ++
          [if (c.Search ops metric from_ until_).2.Complete then AccntCall.CompleteMetric
           else AccntCall.PartialMetric]) := by
  unfold CCache.Search
  cases c.metricCache metric with
  | none => simp [Accnt.MissMetric]
  | some cm =>
    simp only [List.length_eq_zero]
    split_ifs with h1 h2
    · simp [Accnt.MissMetric, h1]
    · simp [foldl_HitChunk, Accnt.CompleteMetric, h1, h2]
    · simp [foldl_HitChunk, Accnt.PartialMetric, h1, h2]

theorem callsSince_append {M : Type} (c c1 : CCache M) (l : List AccntCall)
    (h : c1.accnt = c.accnt ++ l) : callsSince c c1 = l := by
  simp [callsSince, h]

/-! ## The model of the per-metric index -/

/-- The modelled search leaves the entry as it is. -/
theorem specSearch_entry (mc : CCacheMetric) (res : CCSearchResult) (from_ until_ : Nat) :
    (mc.Search res from_ until_).1 = mc := rfl

theorem specSearch_until_le (mc : CCacheMetric) (res : CCSearchResult) (from_ until_ : Nat)
    (h : until_ ≤ from_) : (mc.Search res from_ until_).2 = res := by
  unfold CCacheMetric.Search CCacheMetric.searchRange
  simp only
  rw [if_pos h]

theorem getLast_some_ne_nil {α : Type} (l : List α) (a : α) (h : l.getLast? = some a) :
    l ≠ [] := by
  intro hl
  subst hl
  simp at h

/-- A search that reports completeness has at least one chunk in `Start`. -/
theorem specSearch_Complete_Start (mc : CCacheMetric) (res : CCSearchResult)
    (from_ until_ : Nat) (hres : res.Complete = false)
    (h : (mc.Search res from_ until_).2.Complete = true) :
    (mc.Search res from_ until_).2.Start ≠ [] := by
  by_cases h1 : until_ ≤ from_
  · rw [specSearch_until_le mc res from_ until_ h1, hres] at h
    exact absurd h (by decide)
  · simp only [CCacheMetric.Search, CCacheMetric.searchRange, if_neg h1] at h ⊢
    generalize mc.searchForward from_ until_ = start at h ⊢
    generalize (mc.chunks.filter (fun g => g.Ts ≤ until_ - 1)).getLast? = last at h ⊢
    cases hs : start.getLast? with
    | none =>
      rw [hs] at h
      cases last <;> simp [hres] at h
    | some l =>
      have hne := getLast_some_ne_nil _ _ hs
      cases last <;> simp only <;> split_ifs <;> simp [hne]

/-- In the model, `CCache.Search` leaves the map as it was. -/
theorem specSearch_metricCache (c : CCache CCacheMetric) (metric : String)
    (from_ until_ : Nat) :
    (c.Search specOps metric from_ until_).1.metricCache = c.metricCache := by
  rw [Search_metricCache]
  cases hc : c.metricCache metric with
  | none => rfl
  | some cm =>
    simp only
    have he : (specOps.Search cm
        { From := from_, Until := until_, Start := [], End := [], Complete := false }
        from_ until_).1 = cm := specSearch_entry cm _ from_ until_
    rw [he, ← hc]
    exact Function.update_eq_self metric c.metricCache

theorem filter_isStat_hits (metric : String) (l : List IterGen) :
    (l.map (fun hit => AccntCall.HitChunk metric hit.Ts)).filter AccntCall.isStat = [] := by
  induction l with
  | nil => rfl
  | cons h t ih => simp [List.filter_cons, AccntCall.isStat]

theorem filter_isHit_hits (metric : String) (l : List IterGen) :
    (l.map (fun hit => AccntCall.HitChunk metric hit.Ts)).filter AccntCall.isHit
      = l.map (fun hit => AccntCall.HitChunk metric hit.Ts) := by
  induction l with
  | nil => rfl
  | cons h t ih => simp [List.filter_cons, AccntCall.isHit]

theorem resident_insertChunk (g : IterGen) (l : List IterGen) :
    (insertChunk g l).any (fun x => x.Ts == g.Ts) = true := by
  induction l with
  | nil => simp [insertChunk]
  | cons h t ih =>
    unfold insertChunk
    split_ifs
    · simp
    · rw [List.any_cons, ih, Bool.or_true]

/-- After an insertion the chunk's start timestamp is resident. -/
theorem resident_Add (mc : CCacheMetric) (prev : Nat) (g : IterGen) :
    (mc.Add prev g).resident g.Ts = true := by
  unfold CCacheMetric.Add
  by_cases h : mc.resident g.Ts = true
  · rw [if_pos h]
    exact h
  · rw [if_neg h]
    exact resident_insertChunk g mc.chunks

/-- A second insertion of the same chunk leaves the entry as it is. -/
theorem Add_Add (mc : CCacheMetric) (prev : Nat) (g : IterGen) :
    (mc.Add prev g).Add prev g = mc.Add prev g := by
  have h := resident_Add mc prev g
  generalize mc.Add prev g = mc1 at h ⊢
  unfold CCacheMetric.Add
  rw [if_pos h]

/-- The fuel of the backward scan: any amount from `ts` on gives the same
slice, so the scan started with `ts` never stops for lack of fuel. -/
theorem backwardScan_fuel (mc : CCacheMetric) (n m ts : Nat) (hn : ts ≤ n) (hm : ts ≤ m) :
    backwardScan mc n ts = backwardScan mc m ts := by
  induction n generalizing m ts with
  | zero =>
    have h0 : ts = 0 := Nat.le_zero.mp hn
    subst h0
    cases m with
    | zero => rfl
    | succ k =>
      rw [backwardScan, backwardScan]
      cases hl : mc.prevTs.lookup 0 with
      | none => rfl
      | some p => cases hc : mc.chunkAt p <;> simp [hc]
  | succ n ih =>
    cases m with
    | zero =>
      have h0 : ts = 0 := Nat.le_zero.mp hm
      subst h0
      rw [backwardScan, backwardScan]
      cases hl : mc.prevTs.lookup 0 with
      | none => rfl
      | some p => cases hc : mc.chunkAt p <;> simp [hc]
    | succ k =>
      rw [backwardScan, backwardScan]
      cases hl : mc.prevTs.lookup ts with
      | none => rfl
      | some p =>
        cases hc : mc.chunkAt p with
        | none => simp only [hc]
        | some g =>
          simp only [hc]
          by_cases hp : p < ts
          · rw [if_pos hp, if_pos hp, ih k p (by omega) (by omega)]
          · rw [if_neg hp, if_neg hp]

/-! ## The claims on `Search` and `Add` -/

/-- C2: a search for a metric that has no entry in the map returns empty
`Start` and `End` and `Complete = false`, and the only call it makes on the
accountant is one `MissMetric` (no `HitChunk`, `CompleteMetric` or
`PartialMetric`); this holds whatever the per-metric index does. -/
theorem Search_absent_metric {M : Type} (ops : CCacheMetricOps M) (c : CCache M)
    (metric : String) (from_ until_ : Nat) (h : c.metricCache metric = none) :
    (c.Search ops metric from_ until_).2.Start = [] ∧
      (c.Search ops metric from_ until_).2.End = [] ∧
      (c.Search ops metric from_ until_).2.Complete = false ∧
      (c.Search ops metric from_ until_).1.accnt = c.accnt ++ [AccntCall.MissMetric] := by
  have hr := Search_result ops c metric from_ until_
  have ha := Search_accnt ops c metric from_ until_
  rw [h] at hr
  simp only at hr
  rw [hr] at ha
  rw [hr]
  refine ⟨rfl, rfl, rfl, ?_⟩
  simpa using ha

theorem Search_absent_metric_witness :
    (NewCCache CCacheMetric).metricCache "some.metric" = none ∧
      (((NewCCache CCacheMetric).Search specOps "some.metric" 100 200).2.Start = [] ∧
        ((NewCCache CCacheMetric).Search specOps "some.metric" 100 200).2.End = [] ∧
        ((NewCCache CCacheMetric).Search specOps "some.metric" 100 200).2.Complete = false ∧
        ((NewCCache CCacheMetric).Search specOps "some.metric" 100 200).1.accnt
          = (NewCCache CCacheMetric).accnt ++ [AccntCall.MissMetric]) :=
  ⟨rfl, Search_absent_metric specOps (NewCCache CCacheMetric) "some.metric" 100 200 rfl⟩

/-- C4: the calls a search makes on the accountant are one `HitChunk(metric,
ts)` for each chunk of the returned `Start`, then one for each chunk of the
returned `End`, in slice order and with that chunk's start timestamp,
followed by a single statistics event; so the `HitChunk` calls number
`len(Start) + len(End)` and there is none when both slices are empty.  This
holds whatever the per-metric index does. -/
theorem Search_HitChunk_calls {M : Type} (ops : CCacheMetricOps M) (c : CCache M)
    (metric : String) (from_ until_ : Nat) :
    (∃ stat, stat.isStat = true ∧
        (c.Search ops metric from_ until_).1.accnt =
          c.accnt ++
            ((c.Search ops metric from_ until_).2.Start.map
                (fun hit => AccntCall.HitChunk metric hit.Ts) ++
              (c.Search ops metric from_ until_).2.End.map
                (fun hit => AccntCall.HitChunk metric hit.Ts) ++ [stat])) ∧
      (callsSince c (c.Search ops metric from_ until_).1).filter AccntCall.isHit =
        ((c.Search ops metric from_ until_).2.Start ++
            (c.Search ops metric from_ until_).2.End).map
          (fun hit => AccntCall.HitChunk metric hit.Ts) ∧
      ((callsSince c (c.Search ops metric from_ until_).1).filter AccntCall.isHit).length =
        (c.Search ops metric from_ until_).2.Start.length +
          (c.Search ops metric from_ until_).2.End.length ∧
      ((c.Search ops metric from_ until_).2.Start = [] →
        (c.Search ops metric from_ until_).2.End = [] →
        (callsSince c (c.Search ops metric from_ until_).1).filter AccntCall.isHit = []) := by
  have ha := Search_accnt ops c metric from_ until_
  generalize (c.Search ops metric from_ until_).2 = res at ha ⊢
  generalize (c.Search ops metric from_ until_).1 = c1 at ha ⊢
  have hcalls : ∃ stat, stat.isStat = true ∧ c1.accnt = c.accnt ++
      (res.Start.map (fun hit => AccntCall.HitChunk metric hit.Ts) ++
        res.End.map (fun hit => AccntCall.HitChunk metric hit.Ts) ++ [stat]) := by
    by_cases he : res.Start = [] ∧ res.End = []
    · rw [if_pos he] at ha
      exact ⟨AccntCall.MissMetric, rfl, by simpa [he.1, he.2] using ha⟩
    · rw [if_neg he] at ha
      refine ⟨if res.Complete then AccntCall.CompleteMetric else AccntCall.PartialMetric,
        ?_, by simpa using ha⟩
      cases res.Complete <;> rfl
  obtain ⟨stat, hstat, hacc⟩ := hcalls
  have hfilter : (callsSince c c1).filter AccntCall.isHit =
      (res.Start ++ res.End).map (fun hit => AccntCall.HitChunk metric hit.Ts) := by
    rw [callsSince_append c c1 _ hacc, List.filter_append, ← List.map_append,
      filter_isHit_hits]
    have : [stat].filter AccntCall.isHit = [] := by
      cases stat <;> simp_all [AccntCall.isStat, AccntCall.isHit]
    rw [this, List.append_nil]
  refine ⟨⟨stat, hstat, hacc⟩, hfilter, ?_, ?_⟩
  · rw [hfilter, List.length_map, List.length_append]
  · intro h1 h2
    rw [hfilter, h1, h2]
    rfl

/-- C7: a search is read-only.  The entry `cm.Search` leaves behind its
pointer is the entry it found, so the map, and every entry in it, is after
`Search` what it was before; and a second search with the same arguments,
run on the state the first one left, returns an equal result (same `From`,
`Until`, `Complete`, `Start` and `End`), although the accountant has
received the calls of the first in between. -/
theorem Search_read_only (c : CCache CCacheMetric) (metric : String) (a b : Nat) :
    (c.Search specOps metric a b).1.metricCache = c.metricCache ∧
      (∀ m e, c.metricCache m = some e →
        (c.Search specOps metric a b).1.metricCache m = some e) ∧
      ((c.Search specOps metric a b).1.Search specOps metric a b).2
        = (c.Search specOps metric a b).2 := by
  have hmap := specSearch_metricCache c metric a b
  refine ⟨hmap, ?_, ?_⟩
  · intro m e he
    rw [hmap, he]
  · rw [Search_result specOps (c.Search specOps metric a b).1, Search_result specOps c, hmap]

/-- C8: when `from ≥ until`, a search on any metric, with or without an
entry, returns empty `Start` and `End` and `Complete = false`, and the only
call it makes on the accountant is one `MissMetric`. -/
theorem Search_empty_range (c : CCache CCacheMetric) (metric : String) (from_ until_ : Nat)
    (h : until_ ≤ from_) :
    (c.Search specOps metric from_ until_).2.Start = [] ∧
      (c.Search specOps metric from_ until_).2.End = [] ∧
      (c.Search specOps metric from_ until_).2.Complete = false ∧
      (c.Search specOps metric from_ until_).1.accnt = c.accnt ++ [AccntCall.MissMetric] := by
  have hr := Search_result specOps c metric from_ until_
  have ha := Search_accnt specOps c metric from_ until_
  have hres : (c.Search specOps metric from_ until_).2 =
      { From := from_, Until := until_, Start := [], End := [], Complete := false } := by
    rw [hr]
    cases c.metricCache metric with
    | none => rfl
    | some cm => exact specSearch_until_le cm _ from_ until_ h
  rw [hres] at ha
  rw [hres]
  refine ⟨rfl, rfl, rfl, ?_⟩
  simpa using ha

/-- C6: a second `Add` of the same metric, prev and chunk leaves the map
(the metrics present, and the chunks and predecessor links of each) as the
first `Add` left it. -/
theorem Add_idempotent (c : CCache CCacheMetric) (metric : String) (prev : Nat)
    (itergen : IterGen) :
    ((c.Add specOps metric prev itergen).1.Add specOps metric prev itergen).1.metricCache
      = (c.Add specOps metric prev itergen).1.metricCache := by
  unfold CCache.Add
  cases c.metricCache metric with
  | none =>
    simp only [Function.update_same, Function.update_idem]
    exact congrArg (fun e => Function.update c.metricCache metric (some e))
      (Add_Add NewCCacheMetric prev itergen)
  | some ccm =>
    simp only [Function.update_same, Function.update_idem]
    exact congrArg (fun e => Function.update c.metricCache metric (some e))
      (Add_Add ccm prev itergen)

theorem Search_empty_range_witness :
    100 ≤ 100 ∧
      ((((NewCCache CCacheMetric).Add specOps "some.metric" 0 ⟨100, 10, []⟩).1.Search
            specOps "some.metric" 100 100).2.Start = [] ∧
        (((NewCCache CCacheMetric).Add specOps "some.metric" 0 ⟨100, 10, []⟩).1.Search
            specOps "some.metric" 100 100).2.End = [] ∧
        (((NewCCache CCacheMetric).Add specOps "some.metric" 0 ⟨100, 10, []⟩).1.Search
            specOps "some.metric" 100 100).2.Complete = false ∧
        (((NewCCache CCacheMetric).Add specOps "some.metric" 0 ⟨100, 10, []⟩).1.Search
            specOps "some.metric" 100 100).1.accnt =
          ((NewCCache CCacheMetric).Add specOps "some.metric" 0 ⟨100, 10, []⟩).1.accnt ++
            [AccntCall.MissMetric]) :=
  ⟨le_refl 100, Search_empty_range _ "some.metric" 100 100 (le_refl 100)⟩

/-- C3: the calls a search makes on the accountant contain exactly one of the
three statistics events, and it is chosen from the returned result:
`CompleteMetric` when `Complete` is true, `PartialMetric` when `Start` or
`End` is non-empty and `Complete` is false, `MissMetric` when both are empty.
This holds for a metric that has an entry (and for one that has none). -/
theorem Search_stat_event (c : CCache CCacheMetric) (metric : String) (from_ until_ : Nat) :
    ∃ ev,
      (c.Search specOps metric from_ until_).1.accnt =
          c.accnt ++ callsSince c (c.Search specOps metric from_ until_).1 ∧
        (callsSince c (c.Search specOps metric from_ until_).1).filter AccntCall.isStat = [ev] ∧
        ((c.Search specOps metric from_ until_).2.Complete = true →
          ev = AccntCall.CompleteMetric) ∧
        ((c.Search specOps metric from_ until_).2.Start ≠ [] ∨
            (c.Search specOps metric from_ until_).2.End ≠ [] →
          (c.Search specOps metric from_ until_).2.Complete = false →
          ev = AccntCall.PartialMetric) ∧
        ((c.Search specOps metric from_ until_).2.Start = [] →
          (c.Search specOps metric from_ until_).2.End = [] →
          ev = AccntCall.MissMetric) := by
  have ha := Search_accnt specOps c metric from_ until_
  have hr := Search_result specOps c metric from_ until_
  have hcs : (c.Search specOps metric from_ until_).2.Complete = true →
      (c.Search specOps metric from_ until_).2.Start ≠ [] := by
    rw [hr]
    cases c.metricCache metric with
    | none =>
      intro h
      exact absurd h Bool.false_ne_true
    | some cm => exact specSearch_Complete_Start cm _ from_ until_ rfl
  generalize (c.Search specOps metric from_ until_).2 = res at ha hcs ⊢
  generalize (c.Search specOps metric from_ until_).1 = c1 at ha ⊢
  by_cases he : res.Start = [] ∧ res.End = []
  · rw [if_pos he] at ha
    refine ⟨AccntCall.MissMetric, ?_, ?_, ?_, ?_, ?_⟩
    · rw [callsSince_append c c1 _ ha, ha]
    · rw [callsSince_append c c1 _ ha]
      rfl
    · intro hc
      exact absurd he.1 (hcs hc)
    · intro hne
      rcases hne with h | h
      · exact absurd he.1 h
      · exact absurd he.2 h
    · intro _ _
      rfl
  · rw [if_neg he] at ha
    refine ⟨if res.Complete then AccntCall.CompleteMetric else AccntCall.PartialMetric,
      ?_, ?_, ?_, ?_, ?_⟩
    · rw [callsSince_append c c1 _ ha, ha]
    · rw [callsSince_append c c1 _ ha, List.filter_append, filter_isStat_hits]
      cases res.Complete <;> rfl
    · intro hc
      rw [hc]
      rfl
    · intro _ hc
      rw [hc]
      rfl
    · intro h1 h2
      exact absurd ⟨h1, h2⟩ he

/-! ## The invariant of the map -/

theorem mem_insertChunk (g x : IterGen) (l : List IterGen) :
    x ∈ insertChunk g l ↔ x = g ∨ x ∈ l := by
  induction l with
  | nil => simp [insertChunk]
  | cons h t ih =>
    unfold insertChunk
    split_ifs
    · simp
    · rw [List.mem_cons, ih, List.mem_cons]
      tauto

theorem insertChunk_ne_nil (g : IterGen) (l : List IterGen) : insertChunk g l ≠ [] := by
  cases l with
  | nil => simp [insertChunk]
  | cons h t =>
    unfold insertChunk
    split_ifs <;> simp

theorem insertChunk_ordered (g : IterGen) (l : List IterGen)
    (hl : l.Pairwise (fun a b => a.Ts < b.Ts)) (hg : ∀ x ∈ l, x.Ts ≠ g.Ts) :
    (insertChunk g l).Pairwise (fun a b => a.Ts < b.Ts) := by
  induction l with
  | nil => simp [insertChunk]
  | cons h t ih =>
    rw [List.pairwise_cons] at hl
    have hh : h.Ts ≠ g.Ts := hg h (List.mem_cons_self h t)
    unfold insertChunk
    split_ifs with hle
    · rw [List.pairwise_cons]
      refine ⟨?_, List.pairwise_cons.mpr hl⟩
      intro x hx
      rcases List.mem_cons.mp hx with rfl | hx
      · omega
      · have := hl.1 x hx
        omega
    · rw [List.pairwise_cons]
      refine ⟨?_, ih hl.2 (fun x hx => hg x (List.mem_cons_of_mem h hx))⟩
      intro x hx
      rcases (mem_insertChunk g x t).mp hx with rfl | hx
      · omega
      · exact hl.1 x hx

theorem resident_false_iff (mc : CCacheMetric) (ts : Nat) :
    mc.resident ts = false ↔ ∀ x ∈ mc.chunks, x.Ts ≠ ts := by
  unfold CCacheMetric.resident
  rw [List.any_eq_false]
  simp

theorem Add_ordered (mc : CCacheMetric) (prev : Nat) (g : IterGen) (h : mc.ordered) :
    (mc.Add prev g).ordered := by
  unfold CCacheMetric.Add
  by_cases hr : mc.resident g.Ts = true
  · rw [if_pos hr]
    exact h
  · rw [if_neg hr]
    exact insertChunk_ordered g mc.chunks h
      ((resident_false_iff mc g.Ts).mp (Bool.eq_false_iff.mpr hr))

theorem Add_chunks_ne_nil (mc : CCacheMetric) (prev : Nat) (g : IterGen) :
    (mc.Add prev g).chunks ≠ [] := by
  have h := resident_Add mc prev g
  intro hnil
  unfold CCacheMetric.resident at h
  rw [hnil] at h
  simp at h

theorem Del_ordered (mc : CCacheMetric) (ts : Nat) (h : mc.ordered) :
    (mc.Del ts).1.ordered := by
  unfold CCacheMetric.Del
  by_cases hr : mc.resident ts = true
  · rw [if_pos hr]
    exact List.Pairwise.filter _ h
  · rw [if_neg hr]
    exact h

/-- The number `Del` returns is the count of chunks of the entry it returns. -/
theorem Del_length (mc : CCacheMetric) (ts : Nat) :
    (mc.Del ts).2 = (mc.Del ts).1.chunks.length := by
  unfold CCacheMetric.Del
  by_cases hr : mc.resident ts = true
  · rw [if_pos hr]
  · rw [if_neg hr]

theorem Inv_NewCCache : Inv (NewCCache CCacheMetric) := by
  intro metric e h
  exact absurd h (by simp [NewCCache])

theorem Inv_Add (c : CCache CCacheMetric) (metric : String) (prev : Nat) (g : IterGen)
    (h : Inv c) : Inv (c.Add specOps metric prev g).1 := by
  intro m e he
  by_cases hm : m = metric
  · subst hm
    unfold CCache.Add at he
    cases hc : c.metricCache m with
    | none =>
      rw [hc] at he
      simp only [Function.update_same, Option.some.injEq] at he
      subst he
      exact ⟨Add_chunks_ne_nil _ prev g, Add_ordered _ prev g List.Pairwise.nil⟩
    | some ccm =>
      rw [hc] at he
      simp only [Function.update_same, Option.some.injEq] at he
      subst he
      exact ⟨Add_chunks_ne_nil _ prev g, Add_ordered _ prev g (h m ccm hc).2⟩
  · apply h m e
    unfold CCache.Add at he
    cases hc : c.metricCache metric with
    | none =>
      rw [hc] at he
      simpa [Function.update_noteq hm] using he
    | some ccm =>
      rw [hc] at he
      simpa [Function.update_noteq hm] using he

theorem Inv_evictStep (c : CCache CCacheMetric) (target : EvictTarget) (h : Inv c) :
    Inv (c.evictStep specOps target) := by
  intro m e he
  unfold CCache.evictStep at he
  cases hc : c.metricCache target.Metric with
  | none =>
    rw [hc] at he
    exact h m e he
  | some met =>
    rw [hc] at he
    simp only at he
    by_cases hm : m = target.Metric
    · subst hm
      split_ifs at he with h0
      · simp at he
      · simp only [Function.update_same, Option.some.injEq] at he
        subst he
        refine ⟨?_, Del_ordered met target.Ts (h _ met hc).2⟩
        intro hnil
        apply h0
        change (CCacheMetric.Del met target.Ts).1.chunks = [] at hnil
        show (CCacheMetric.Del met target.Ts).2 = 0
        rw [Del_length, hnil]
        rfl
    · split_ifs at he with h0
      · simp only [Function.update_noteq hm] at he
        exact h m e he
      · simp only [Function.update_noteq hm] at he
        exact h m e he

theorem Inv_step (c : CCache CCacheMetric) (op : Op) (h : Inv c) : Inv (step c op) := by
  cases op with
  | add metric prev itergen => exact Inv_Add c metric prev itergen h
  | search metric from_ until_ =>
    intro m e he
    apply h m e
    have hmap := specSearch_metricCache c metric from_ until_
    change (c.Search specOps metric from_ until_).1.metricCache m = some e at he
    rw [hmap] at he
    exact he
  | evict target => exact Inv_evictStep c target h

/-- The eviction worker on a queue of targets is the run of its steps. -/
theorem evictLoop_eq_run (q : List EvictTarget) (c : CCache CCacheMetric) :
    c.evictLoop specOps q = run c (q.map Op.evict) := by
  induction q generalizing c with
  | nil => rfl
  | cons target rest ih => exact ih (c.evictStep specOps target)

theorem Inv_of_Reachable (c : CCache CCacheMetric) (h : Reachable c) : Inv c := by
  induction h with
  | init => exact Inv_NewCCache
  | step c op _ ih => exact Inv_step c op ih

/-- C10: in every state reached from the empty cache of `NewCCache` by calls
of `Add` (and `Search`) and steps of the eviction worker, every metric key
present in the map has an entry holding at least one chunk. -/
theorem no_empty_entry (c : CCache CCacheMetric) (h : Reachable c) (metric : String)
    (e : CCacheMetric) (he : c.metricCache metric = some e) : 0 < e.chunks.length :=
  List.length_pos.mpr ((Inv_of_Reachable c h metric e he).1)

theorem shortRun_Reachable : Reachable shortRun :=
  Reachable.step _ _ (Reachable.step _ _ (Reachable.step _ _ Reachable.init))

theorem no_empty_entry_witness :
    Reachable shortRun ∧
      shortRun.metricCache "b" = some { chunks := [chunk100], prevTs := [(100, 0)] } ∧
      0 < ({ chunks := [chunk100], prevTs := [(100, 0)] } : CCacheMetric).chunks.length :=
  ⟨shortRun_Reachable, by decide,
    no_empty_entry shortRun shortRun_Reachable "b"
      { chunks := [chunk100], prevTs := [(100, 0)] } (by decide)⟩

/-! ## One step of the eviction worker -/

theorem lookup_filter_ne (ts k : Nat) (l : List (Nat × Nat)) :
    List.lookup k (l.filter (fun e => e.1 != ts)) = if k = ts then none else List.lookup k l := by
  induction l with
  | nil => simp
  | cons h t ih =>
    obtain ⟨a, b⟩ := h
    by_cases ha : a = ts
    · subst ha
      rw [List.filter_cons_of_neg (by simp), ih]
      by_cases hk : k = a
      · simp [hk]
      · have hka : (k == a) = false := by simpa using hk
        simp [hk, List.lookup_cons, hka]
    · rw [List.filter_cons_of_pos (by simpa using ha)]
      by_cases hka : k = a
      · subst hka
        simp [ha, List.lookup_cons]
      · have hka1 : (k == a) = false := by simpa using hka
        simp only [List.lookup_cons, hka1, ih]

theorem find_filter_ne (ts k : Nat) (hk : k ≠ ts) (l : List IterGen) :
    (l.filter (fun g => g.Ts != ts)).find? (fun g => g.Ts == k)
      = l.find? (fun g => g.Ts == k) := by
  induction l with
  | nil => rfl
  | cons h t ih =>
    by_cases ha : h.Ts = ts
    · have hne : (h.Ts == k) = false := by
        simp only [beq_eq_false_iff_ne, ne_eq]
        omega
      rw [List.filter_cons_of_neg (by simp [ha]), ih, List.find?_cons, hne]
    · rw [List.filter_cons_of_pos (by simpa using ha), List.find?_cons, List.find?_cons, ih]

theorem any_filter_ne (ts : Nat) (l : List IterGen) :
    (l.filter (fun g => g.Ts != ts)).any (fun g => g.Ts == ts) = false := by
  rw [List.any_eq_false]
  intro x hx
  have := (List.mem_filter.mp hx).2
  simpa using this

theorem filter_ne_of_lt (ts : Nat) (l : List IterGen) (h : ∀ x ∈ l, ts < x.Ts) :
    l.filter (fun g => g.Ts != ts) = l := by
  rw [List.filter_eq_self]
  intro x hx
  have := h x hx
  simp only [bne_iff_ne, ne_eq]
  omega

theorem length_filter_ne (ts : Nat) (l : List IterGen)
    (hl : l.Pairwise (fun a b => a.Ts < b.Ts)) (hr : l.any (fun g => g.Ts == ts) = true) :
    (l.filter (fun g => g.Ts != ts)).length + 1 = l.length := by
  induction l with
  | nil => simp at hr
  | cons h t ih =>
    rw [List.pairwise_cons] at hl
    by_cases ha : h.Ts = ts
    · subst ha
      rw [List.filter_cons_of_neg (by simp), filter_ne_of_lt h.Ts t hl.1]
      rfl
    · have hr1 : t.any (fun g => g.Ts == ts) = true := by
        rw [List.any_cons] at hr
        have hne : (h.Ts == ts) = false := by simpa using ha
        rw [hne, Bool.false_or] at hr
        exact hr
      rw [List.filter_cons_of_pos (by simpa using ha), List.length_cons, List.length_cons,
        ih hl.2 hr1]

theorem Del_not_resident (mc : CCacheMetric) (ts : Nat) (h : mc.resident ts = false) :
    mc.Del ts = (mc, mc.chunks.length) := by
  unfold CCacheMetric.Del
  rw [if_neg (by simp [h])]

theorem Del_resident (mc : CCacheMetric) (ts : Nat) (h : mc.resident ts = true) :
    (mc.Del ts).1 =
      { chunks := mc.chunks.filter (fun g => g.Ts != ts),
        prevTs := mc.prevTs.filter (fun e => e.1 != ts) } := by
  unfold CCacheMetric.Del
  rw [if_pos h]

theorem evictStep_accnt (c : CCache CCacheMetric) (target : EvictTarget) :
    (c.evictStep specOps target).accnt = c.accnt := by
  unfold CCache.evictStep
  cases c.metricCache target.Metric with
  | none => rfl
  | some met =>
    simp only
    split_ifs <;> rfl

theorem evictStep_other (c : CCache CCacheMetric) (target : EvictTarget) (m : String)
    (hm : m ≠ target.Metric) :
    (c.evictStep specOps target).metricCache m = c.metricCache m := by
  unfold CCache.evictStep
  cases c.metricCache target.Metric with
  | none => rfl
  | some met =>
    simp only
    split_ifs <;> simp [Function.update_noteq hm]

theorem evictStep_entry (c : CCache CCacheMetric) (target : EvictTarget) (e : CCacheMetric)
    (he : c.metricCache target.Metric = some e) :
    (c.evictStep specOps target).metricCache target.Metric =
      if (e.without target.Ts).chunks = [] then none else some (e.without target.Ts) := by
  unfold CCache.evictStep
  rw [he]
  simp only
  have hlen : (specOps.Del e target.Ts).2 = (e.without target.Ts).chunks.length :=
    Del_length e target.Ts
  rw [hlen]
  by_cases h0 : (e.without target.Ts).chunks = []
  · rw [if_pos (by rw [h0]; rfl), if_pos h0]
    simp
  · rw [if_neg (by rw [List.length_eq_zero]; exact h0), if_neg h0]
    simp [CCacheMetric.without, specOps]

/-- C5: one step of the eviction worker on the target `(metric, ts)`, in any
state the cache reaches.  The accountant's log and the entries of all other
metrics are unchanged.  With no entry for `metric`, or an entry holding no
chunk at `ts`, the cache is unchanged.  With an entry holding a chunk at
`ts`, that chunk and its predecessor link are removed from the entry (one
chunk fewer, nothing resident at `ts`, every other chunk and link kept), and
the entry is removed from the map exactly when no chunk is left. -/
theorem evictStep_removal (c : CCache CCacheMetric) (hc : Reachable c) (metric : String)
    (ts : Nat) :
    (c.evictStep specOps ⟨metric, ts⟩).accnt = c.accnt ∧
      (∀ m, m ≠ metric →
        (c.evictStep specOps ⟨metric, ts⟩).metricCache m = c.metricCache m) ∧
      (c.metricCache metric = none → c.evictStep specOps ⟨metric, ts⟩ = c) ∧
      (∀ e, c.metricCache metric = some e →
        (e.resident ts = false → c.evictStep specOps ⟨metric, ts⟩ = c) ∧
        (e.resident ts = true →
          (e.without ts).resident ts = false ∧
          (e.without ts).chunks.length + 1 = e.chunks.length ∧
          (∀ k, k ≠ ts → (e.without ts).chunkAt k = e.chunkAt k) ∧
          (∀ k, (e.without ts).prevTs.lookup k =
            if k = ts then none else e.prevTs.lookup k) ∧
          (c.evictStep specOps ⟨metric, ts⟩).metricCache metric =
            if (e.without ts).chunks = [] then none else some (e.without ts))) := by
  have hinv := Inv_of_Reachable c hc
  refine ⟨evictStep_accnt c _, fun m hm => evictStep_other c _ m hm, ?_, ?_⟩
  · intro hnone
    unfold CCache.evictStep
    simp only [hnone]
  · intro e he
    constructor
    · intro hr
      have hent := evictStep_entry c ⟨metric, ts⟩ e he
      have hw : e.without ts = e := by
        unfold CCacheMetric.without
        rw [Del_not_resident e ts hr]
      simp only at hent
      rw [hw, if_neg (hinv metric e he).1] at hent
      have hmap : (c.evictStep specOps ⟨metric, ts⟩).metricCache = c.metricCache := by
        funext m
        by_cases hm : m = metric
        · rw [hm, hent, he]
        · exact evictStep_other c ⟨metric, ts⟩ m hm
      have hacc := evictStep_accnt c ⟨metric, ts⟩
      generalize c.evictStep specOps ⟨metric, ts⟩ = c1 at hmap hacc
      cases c1
      cases c
      simp only at hmap hacc
      rw [hmap, hacc]
    · intro hr
      have hw : e.without ts =
          { chunks := e.chunks.filter (fun g => g.Ts != ts),
            prevTs := e.prevTs.filter (fun x => x.1 != ts) } := Del_resident e ts hr
      refine ⟨?_, ?_, ?_, ?_, evictStep_entry c ⟨metric, ts⟩ e he⟩
      · rw [hw]
        exact any_filter_ne ts e.chunks
      · rw [hw]
        exact length_filter_ne ts e.chunks (hinv metric e he).2 hr
      · intro k hk
        rw [hw]
        exact find_filter_ne ts k hk e.chunks
      · intro k
        rw [hw]
        exact lookup_filter_ne ts k e.prevTs

theorem evictStep_removal_witness :
    Reachable shortRun ∧
      ((shortRun.evictStep specOps ⟨"b", 100⟩).accnt = shortRun.accnt ∧
        (∀ m, m ≠ "b" →
          (shortRun.evictStep specOps ⟨"b", 100⟩).metricCache m = shortRun.metricCache m) ∧
        (shortRun.metricCache "b" = none →
          shortRun.evictStep specOps ⟨"b", 100⟩ = shortRun) ∧
        (∀ e, shortRun.metricCache "b" = some e →
          (e.resident 100 = false → shortRun.evictStep specOps ⟨"b", 100⟩ = shortRun) ∧
          (e.resident 100 = true →
            (e.without 100).resident 100 = false ∧
            (e.without 100).chunks.length + 1 = e.chunks.length ∧
            (∀ k, k ≠ 100 → (e.without 100).chunkAt k = e.chunkAt k) ∧
            (∀ k, (e.without 100).prevTs.lookup k =
              if k = 100 then none else e.prevTs.lookup k) ∧
            (shortRun.evictStep specOps ⟨"b", 100⟩).metricCache "b" =
              if (e.without 100).chunks = [] then none else some (e.without 100)))) :=
  ⟨shortRun_Reachable, evictStep_removal shortRun shortRun_Reachable "b" 100⟩

/-! ## The model on the scenarios of spec section 8 -/

/-- Scenario 1, cold miss: a search on the fresh cache returns the empty
result and counts one miss. -/
theorem scenario_cold_miss :
    ((NewCCache CCacheMetric).Search specOps "m" 100 200).2
        = { From := 100, Until := 200, Complete := false, Start := [], End := [] } ∧
      ((NewCCache CCacheMetric).Search specOps "m" 100 200).1.accnt
        = [AccntCall.MissMetric] := by
  decide

/-- Scenario 2, full hit on a single chunk, counted as one complete hit. -/
theorem scenario_full_hit_single :
    ((run (NewCCache CCacheMetric) [Op.add "m" 0 chunk100]).Search specOps "m" 100 150).2
        = { From := 100, Until := 150, Complete := true, Start := [chunk100], End := [] } ∧
      ((run (NewCCache CCacheMetric) [Op.add "m" 0 chunk100]).Search specOps "m" 100 150).1.accnt
        = [AccntCall.AddChunk "m" 100 10, AccntCall.HitChunk "m" 100,
            AccntCall.CompleteMetric] := by
  decide

/-- Scenario 3, full hit on two chained chunks. -/
theorem scenario_full_hit_chained :
    ((run (NewCCache CCacheMetric) [Op.add "m" 0 chunk100, Op.add "m" 100 chunk200]).Search
        specOps "m" 150 250).2
      = { From := 150, Until := 250, Complete := true, Start := [chunk100, chunk200],
          End := [] } := by
  decide

/-- Scenario 5, suffix only: the single resident chunk starts after `from`, so
`Start` stays empty and the chunk is found by the backward scan. -/
theorem scenario_suffix_only :
    ((run (NewCCache CCacheMetric) [Op.add "m" 300 chunk400]).Search specOps "m" 100 500).2
      = { From := 100, Until := 500, Complete := false, Start := [], End := [chunk400] } := by
  decide

/-- Scenario 6, the cache side: once the eviction worker has removed the
oldest of three chunks, a search right at it is a miss. -/
theorem scenario_evicted_miss :
    ((run (NewCCache CCacheMetric)
          [Op.add "m" 0 chunk100, Op.add "m" 100 chunk200, Op.add "m" 200 chunk300,
            Op.evict ⟨"m", 100⟩]).Search specOps "m" 100 101).2
        = { From := 100, Until := 101, Complete := false, Start := [], End := [] } ∧
      callsSince
          (run (NewCCache CCacheMetric)
            [Op.add "m" 0 chunk100, Op.add "m" 100 chunk200, Op.add "m" 200 chunk300,
              Op.evict ⟨"m", 100⟩])
          ((run (NewCCache CCacheMetric)
            [Op.add "m" 0 chunk100, Op.add "m" 100 chunk200, Op.add "m" 200 chunk300,
              Op.evict ⟨"m", 100⟩]).Search specOps "m" 100 101).1
        = [AccntCall.MissMetric] := by
  decide

end Metrictank
